import Mathlib

/-!
Verification of the calyx-lsp semantic core against its specification.

The development shallowly embeds the Rust sources:
* `src/document.rs` — the `Document` model: the tree-sitter query wrapper
  `captures`, `update_component_map` (the Component Table), `thing_at_point`,
  `resolved_imports`, `last_word_from_point`, `completion_at_point`;
* `src/goto_definition.rs` — `find_component`;
* `src/main.rs` — the cross-file frontier loops of `goto_definition`,
  and `did_change_configuration`.

The tree-sitter parser itself is an external oracle; concrete syntax trees
(`TSNode`) are modelled directly, shaped after the tree-sitter-calyx grammar,
and the query engine (`matchPat`/`captures`) is modelled over a pattern type
`Pat` mirroring the fixed query strings that appear in the source.
-/

/-- A concrete-syntax-tree node of the external tree-sitter oracle:
a kind, the node's own text, and the ordered list of (named) children. -/
inductive TSNode where
  | mk (kind : String) (text : String) (children : List TSNode)
deriving Repr

/-- The node's grammar kind (`ts::Node::kind`). -/
def TSNode.kind : TSNode → String
  | .mk k _ _ => k

/-- The node's source text (`Document::node_text`). -/
def node_text : TSNode → String
  | .mk _ t _ => t

/-- The node's children. -/
def TSNode.children : TSNode → List TSNode
  | .mk _ _ cs => cs

/-- A compiled tree-sitter query pattern: a node kind, an optional
`@capture` name attached to the node, and sub-patterns that must match
direct children in order (tree-sitter's unanchored child matching). -/
inductive Pat where
  | mk (kind : String) (cap : Option String) (children : List Pat)
deriving Repr

/-- The pattern's node kind. -/
def Pat.kind : Pat → String
  | .mk k _ _ => k

/-- The pattern's capture name, if any. -/
def Pat.cap : Pat → Option String
  | .mk _ c _ => c

/-- The pattern's sub-patterns. -/
def Pat.children : Pat → List Pat
  | .mk _ _ cs => cs

mutual

/-- All capture names appearing in a pattern, in order of appearance
(`ts::Query::capture_names`). -/
def capNames : Pat → List String
  | .mk _ c cs => c.toList ++ capNamesList cs

/-- Capture names of a list of patterns. -/
def capNamesList : List Pat → List String
  | [] => []
  | p :: ps => capNames p ++ capNamesList ps

end

mutual

/-- All ways the pattern matches at this exact node, each way giving the
list of `(capture-name, node)` bindings in pattern order. -/
def matchPat : Pat → TSNode → List (List (String × TSNode))
  | .mk k c ps, .mk nk nt ncs =>
    if nk = k then
      (seqMatches ps ncs).map (fun bs =>
        (c.map (fun cn => (cn, TSNode.mk nk nt ncs))).toList ++ bs)
    else []

/-- All ways a list of sub-patterns matches an ordered subsequence of a
list of child nodes. -/
def seqMatches : List Pat → List TSNode → List (List (String × TSNode))
  | [], _ => [[]]
  | _ :: _, [] => []
  | p :: ps, n :: ns =>
    ((matchPat p n).flatMap (fun bs =>
      (seqMatches ps ns).map (fun bs2 => bs ++ bs2))) ++
    seqMatches (p :: ps) ns

end

mutual

/-- All nodes of a subtree in tree (preorder) order. -/
def preorder : TSNode → List TSNode
  | .mk k t cs => TSNode.mk k t cs :: preorderList cs

/-- All nodes of a forest in tree order. -/
def preorderList : List TSNode → List TSNode
  | [] => []
  | n :: ns => preorder n ++ preorderList ns

end

/-- All matches of any of the query's top-level patterns over a subtree,
in tree order (`ts::QueryCursor::matches`). -/
def allMatches (ps : List Pat) (root : TSNode) : List (List (String × TSNode)) :=
  (preorder root).flatMap (fun d => ps.flatMap (fun p => matchPat p d))

/-- All `(capture-name, node)` bindings of all matches, in match order. -/
def allBindings (ps : List Pat) (root : TSNode) : List (String × TSNode) :=
  (allMatches ps root).flatten

/-- The nodes captured under one name, in match order. -/
def capturedNodes (ps : List Pat) (root : TSNode) (name : String) : List TSNode :=
  (allBindings ps root).filterMap
    (fun b => if b.1 = name then some b.2 else none)

/-- Assoc-list model of Rust's `HashMap`: lookup (`HashMap::get`). -/
def mlookup {α : Type} : List (String × α) → String → Option α
  | [], _ => none
  | (k, v) :: m, key => if k = key then some v else mlookup m key

/-- `map.entry(k).and_modify(push v).or_insert(vec![v])`: append `v` to the
entry's list, creating the entry when missing. -/
def mapPush (m : List (String × List TSNode)) (k : String) (v : TSNode) :
    List (String × List TSNode) :=
  match m with
  | [] => [(k, [v])]
  | (k1, l) :: rest =>
    if k1 = k then (k1, l ++ [v]) :: rest else (k1, l) :: mapPush rest k v

/-- `Document::captures`: runs a query over a subtree and groups the captured
nodes by capture name; every capture name of the pattern is pre-seeded with
an empty list before any match is recorded. -/
def captures (ps : List Pat) (root : TSNode) : List (String × List TSNode) :=
  let names := capNamesList ps
  let init := names.map (fun n => (n, ([] : List TSNode)))
  (allBindings ps root).foldl (fun m b => mapPush m b.1 b.2) init

/-- `map["name"]` indexing into a `captures` result. -/
def capGet (ps : List Pat) (root : TSNode) (name : String) : List TSNode :=
  (mlookup (captures ps root) name).getD []

/-- `HashMap::insert` on the assoc-list model: replace an existing key's
value in place, otherwise append the new entry. -/
def hmInsert {α : Type} (m : List (String × α)) (k : String) (v : α) :
    List (String × α) :=
  match m with
  | [] => [(k, v)]
  | (k1, v1) :: rest =>
    if k1 = k then (k1, v) :: rest else (k1, v1) :: hmInsert rest k v

/-- `Iterator::collect::<HashMap<_, _>>()`: insert the pairs in iteration
order; a later pair with the same key overwrites the earlier one. -/
def buildHashMap {α : Type} (l : List (String × α)) : List (String × α) :=
  l.foldl (fun m kv => hmInsert m kv.1 kv.2) []

/-! ## Grammar-shaped trees (tree-sitter-calyx)

Concrete-syntax shapes produced by the external parsing oracle for the
constructs the queries in `document.rs` mention. -/

/-- An `(ident)` leaf. -/
def identN (s : String) : TSNode := .mk "ident" s []

/-- A port width literal. -/
def numN (s : String) : TSNode := .mk "number" s []

/-- An `(io_port)`: port name followed by its width. -/
def ioPortN (p : String × String) : TSNode := .mk "io_port" "" [identN p.1, numN p.2]

/-- An `(io_port_list)`. -/
def ioPortListN (ports : List (String × String)) : TSNode :=
  .mk "io_port_list" "" (ports.map ioPortN)

/-- A `(signature)`: the input port list then the output port list. -/
def signatureN (ins outs : List (String × String)) : TSNode :=
  .mk "signature" "" [ioPortListN ins, ioPortListN outs]

/-- A `(cell_assignment)`: `name = Comp(...)`. -/
def cellAssignN (c : String × String) : TSNode :=
  .mk "cell_assignment" "" [identN c.1, .mk "instantiation" "" [identN c.2]]

/-- A `(cells)` section. -/
def cellsN (cs : List (String × String)) : TSNode :=
  .mk "cells" "" (cs.map cellAssignN)

/-- A `(group)` with its name. -/
def groupN (g : String) : TSNode := .mk "group" "" [identN g]

/-- A `(wires)` section wrapping `(wires_inner)` with its groups. -/
def wiresN (gs : List String) : TSNode :=
  .mk "wires" "" [.mk "wires_inner" "" (gs.map groupN)]

/-- A `(control)` section. -/
def controlN : TSNode := .mk "control" "" []

/-- A `(component)` declaration: name, signature, cells, wires, control. -/
def componentN (name : String) (ins outs : List (String × String))
    (cells : List (String × String)) (groups : List String) : TSNode :=
  .mk "component" ""
    [identN name, signatureN ins outs, cellsN cells, wiresN groups, controlN]

/-- A `(primitive)` declaration: name and signature only. -/
def primitiveN (name : String) (ins outs : List (String × String)) : TSNode :=
  .mk "primitive" "" [identN name, signatureN ins outs]

/-- An `(import "file")` declaration; the string node keeps its quotes. -/
def importDeclN (s : String) : TSNode :=
  .mk "import" "" [.mk "string" ("\"" ++ s ++ "\"") []]

/-- A source file node. -/
def sourceFileN (decls : List TSNode) : TSNode := .mk "source_file" "" decls

/-! ## The queries of `document.rs` as `Pat` values -/

/-- The big `update_component_map` query:
`(component (ident) @comp (signature (io_port_list) @inputs
(io_port_list) @outputs) (cells) @cells (wires) @wires)`. -/
def bigQ : Pat :=
  .mk "component" none
    [.mk "ident" (some "comp") [],
     .mk "signature" none
       [.mk "io_port_list" (some "inputs") [],
        .mk "io_port_list" (some "outputs") []],
     .mk "cells" (some "cells") [],
     .mk "wires" (some "wires") []]

/-- `(ident) @id`. -/
def idQ : Pat := .mk "ident" (some "id") []

/-- `(cell_assignment (ident) @name (instantiation (ident) @cell))`. -/
def cellQ : Pat :=
  .mk "cell_assignment" none
    [.mk "ident" (some "name") [],
     .mk "instantiation" none [.mk "ident" (some "cell") []]]

/-- `(group (ident) @id)`. -/
def groupQ : Pat := .mk "group" none [.mk "ident" (some "id") []]

/-- `(component (ident) @comp)`. -/
def compIdentQ : Pat := .mk "component" none [.mk "ident" (some "comp") []]

/-- `(primitive (ident) @comp)`. -/
def primIdentQ : Pat := .mk "primitive" none [.mk "ident" (some "comp") []]

/-- `(import (string) @file)`. -/
def impQ : Pat := .mk "import" none [.mk "string" (some "file") []]

/-! ## The Component Table (`Document::update_component_map`) -/

/-- File-private information about each component
(`PrivateComponentInfo` in `document.rs`). -/
structure PrivateComponentInfo where
  inputs : List String
  outputs : List String
  cells : List (String × String)
  groups : List String
deriving Repr, DecidableEq

/-- Zip of the five capture lists, truncating to the shortest
(`itertools::multizip`). -/
def zip5 {α β γ δ ε : Type} :
    List α → List β → List γ → List δ → List ε →
      List (α × β × γ × δ × ε)
  | a :: as1, b :: bs, c :: cs, d :: ds, e :: es =>
    (a, b, c, d, e) :: zip5 as1 bs cs ds es
  | _, _, _, _, _ => []

/-- One Component Table entry from one match of the big query: the entry's
fields are extracted by the nested `captures` calls of
`update_component_map`. -/
def entryOfMatch (t : TSNode × TSNode × TSNode × TSNode × TSNode) :
    String × PrivateComponentInfo :=
  let (comp, inputs, outputs, cells, wires) := t
  (node_text comp,
    { inputs := (capGet [idQ] inputs "id").map node_text
      outputs := (capGet [idQ] outputs "id").map node_text
      cells :=
        buildHashMap
          (((capGet [cellQ] cells "name").zip (capGet [cellQ] cells "cell")).map
            (fun nc => (node_text nc.1, node_text nc.2)))
      groups := (capGet [groupQ] wires "id").map node_text })

/-- The entry list built by `update_component_map` from the root node,
in match order. -/
def componentEntries (root : TSNode) : List (String × PrivateComponentInfo) :=
  let map := captures [bigQ] root
  (zip5 ((mlookup map "comp").getD []) ((mlookup map "inputs").getD [])
      ((mlookup map "outputs").getD []) ((mlookup map "cells").getD [])
      ((mlookup map "wires").getD [])).map entryOfMatch

/-- `Document::update_component_map`: the Component Table rebuilt from a
parse tree (`.collect()` into a `HashMap`, later entries overwriting). -/
def component_map (root : TSNode) : List (String × PrivateComponentInfo) :=
  buildHashMap (componentEntries root)

/-- `Document::components`: the name identifier nodes of every declared
component or primitive, in tree order. -/
def components_q (root : TSNode) : List TSNode :=
  capGet [compIdentQ, primIdentQ] root "comp"

/-- Rust's `str::replace('"', "")`: drop every double-quote character. -/
def stripQuotes (s : String) : String :=
  String.mk (s.toList.filter (fun c => c ≠ '"'))

/-- `Document::raw_imports`: the literal imported path strings with the
quote characters removed. -/
def raw_imports (root : TSNode) : List String :=
  (capGet [impQ] root "file").map (fun n => stripQuotes (node_text n))

/-! ## Import resolution (`Document::resolved_imports`) -/

/-- The filesystem and path collaborators consumed by import resolution:
`Path::join`, the `resolve_path` home-expansion/canonicalization, and
`Path::exists`. -/
structure PathOps where
  join : String → String → String
  res : String → String
  exs : String → Bool

/-- `itertools::cartesian_product`: pairs in major order of the first list. -/
def cartProd {α β : Type} (xs : List α) (ys : List β) : List (α × β) :=
  xs.flatMap (fun x => ys.map (fun y => (x, y)))

/-- `Document::resolved_imports`: every `(import-string, root)` pair with the
current directory ahead of the configured library roots, each joined,
resolved, and filtered to paths that exist. -/
def resolve_imports (ops : PathOps) (cur_dir : String)
    (lib_paths : List String) (imps : List String) : List String :=
  ((cartProd imps (cur_dir :: lib_paths)).map
      (fun bl => ops.res (ops.join bl.2 bl.1))).filter ops.exs

/-! ## Position classification (`Document::thing_at_point`) -/

/-- The observations `thing_at_point` makes of the syntax node covering the
cursor: its immediate parent's kind (`node.parent().kind()`), whether it has
a following/preceding sibling, and its own text. -/
structure NodeView where
  parentKind : Option String
  hasNext : Bool
  hasPrev : Bool
  text : String

/-- The `Things` enum of `document.rs` (the referencing node handle is not
carried; only the textual payload matters here). -/
inductive Things where
  | Cell (name : String)
  | SelfPort (name : String)
  | Component (name : String)
  | Group (name : String)
  | Import (path : String)
deriving Repr, DecidableEq

/-- `Document::thing_at_point`: classification of the covering node by its
immediate parent's kind, disambiguated by sibling presence, in source
branch order. -/
def thing_at_point (v : NodeView) : Option Things :=
  if v.parentKind = some "port" then
    if v.hasNext then some (.Cell v.text)
    else if !v.hasPrev then some (.SelfPort v.text)
    else none
  else if v.parentKind = some "enable" then some (.Group v.text)
  else if v.parentKind = some "hole" then
    if v.hasNext then some (.Group v.text) else none
  else if v.parentKind = some "port_with" then some (.Group v.text)
  else if v.parentKind = some "instantiation" then some (.Component v.text)
  else if v.parentKind = some "import" then some (.Import (stripQuotes v.text))
  else none

/-- The `Context` enum of `document.rs`. -/
inductive Context where
  | Toplevel
  | Component
  | Cells
  | Group
  | Wires
  | Control
deriving Repr, DecidableEq

/-! ## Completion (`Document::completion_at_point`) -/

/-- The `QueryResult` continuation type: a concrete answer, or a deferred
cross-file search over candidate paths. -/
inductive QueryResult (T D : Type) where
  | Found (v : T)
  | ContinueSearch (paths : List String) (data : D)
deriving Repr, DecidableEq

/-- Regex `\b\w+\b` word characters. -/
def isWordChar (c : Char) : Bool := c.isAlphanum || c = '_'

/-- First `\b\w+\b` match of a string (`Regex::find`): the first maximal
run of word characters. -/
def firstWordMatch (s : String) : Option String :=
  let run := (s.toList.dropWhile (fun c => !isWordChar c)).takeWhile isWordChar
  if run.isEmpty then none else some (String.mk run)

/-- `Document::last_word_from_point`: reverse the current line up to the
cursor column and take the first word of the reversal, reversed back. -/
def last_word_from_point (lines : List String) (row col : Nat) : Option String :=
  (lines.get? row).bind (fun cur_line =>
    let rev_line := String.mk ((cur_line.toList.take col).reverse)
    (firstWordMatch rev_line).map (fun m => String.mk m.toList.reverse))

/-- `Document::completion_at_point`. The tree-derived observations — the
context at the cursor, the enclosing component's name, whether a node
covers the cursor — and the document's Component Table and resolved imports
are passed in; the dispatch over `(Context, trigger)` is translated
branch-for-branch from the source. -/
def completion_at_point (comps : List (String × PrivateComponentInfo))
    (resolvedImps : List String) (lines : List String) (row col : Nat)
    (hasNode : Bool) (ctx : Context) (enclosing : Option String)
    (trigger : Option String) : QueryResult (List (String × String)) String :=
  ((last_word_from_point lines row col).bind (fun word =>
    (if hasNode then some () else none).bind (fun _ =>
      match ctx, trigger with
      | .Toplevel, _ => none
      | .Component, _ => none
      | .Cells, _ =>
        some (.Found (comps.map (fun kv => (kv.1, "component"))))
      | .Group, some "." | .Wires, some "." =>
        enclosing.bind (fun comp_name =>
          (mlookup comps comp_name).bind (fun ci =>
            (mlookup ci.cells word).bind (fun cell_name =>
              ((mlookup comps cell_name).map (fun ci2 =>
                QueryResult.Found
                  (ci2.inputs.map (fun i => (i, "input")) ++
                   ci2.outputs.map (fun o => (o, "output"))))).orElse
                (fun _ =>
                  some (.ContinueSearch resolvedImps cell_name)))))
      | .Group, _ =>
        enclosing.bind (fun comp_name =>
          (mlookup comps comp_name).map (fun ci =>
            QueryResult.Found
              (ci.cells.map (fun kv => (kv.1, "cell")) ++
               ci.groups.flatMap (fun g =>
                 [(g ++ "[go]", "hole"), (g ++ "[done]", "hole"),
                  (g, "hole")]))))
      | .Wires, _ =>
        enclosing.bind (fun comp_name =>
          (mlookup comps comp_name).map (fun ci =>
            QueryResult.Found (ci.cells.map (fun kv => (kv.1, "cell")))))
      | .Control, _ =>
        enclosing.bind (fun comp_name =>
          (mlookup comps comp_name).map (fun ci =>
            QueryResult.Found
              (ci.groups.map (fun g => (g, "group")))))))).getD
    (.Found [])

/-! ## Per-document component resolution (`Document::find_component`) -/

/-- A resolved source location: the answering file and the defining node. -/
def Loc : Type := String × TSNode

/-- The per-document view `find_component` needs: the document's URL, its
directory, and its parse tree. -/
structure DocG where
  url : String
  cur_dir : String
  tree : TSNode

/-- `Document::find_component` (`goto_definition.rs`): the first declared
component or primitive whose name matches resolves locally; otherwise the
search continues over the file's resolved imports. -/
def find_component (ops : PathOps) (lib_paths : List String) (d : DocG)
    (name : String) : Option (QueryResult Loc String) :=
  (((components_q d.tree).find? (fun n => node_text n == name)).map
      (fun n => QueryResult.Found ((d.url, n) : Loc))).orElse
    (fun _ =>
      some (.ContinueSearch
        (resolve_imports ops d.cur_dir lib_paths (raw_imports d.tree)) name))

/-! ## The cross-file frontier loop (`Backend::goto_definition`) -/

/-- `Vec::pop`: remove and return the item at the end. -/
def vec_pop {α : Type} : List α → Option (α × List α)
  | [] => none
  | x :: xs =>
    match vec_pop xs with
    | none => some (x, [])
    | some (y, rest) => some (y, x :: rest)

/-- The `ContinueSearch` frontier loop of `Backend::goto_definition`,
fuel-indexed: pop a candidate path from the end of the queue, load its
document (`fs`), run `find_component`; a `Found` overwrites the running
answer, a `ContinueSearch` appends its paths to the queue, an unreadable
file is skipped. `none` means the fuel ran out before the queue emptied. -/
def goto_loop (ops : PathOps) (lib_paths : List String) (name : String)
    (fs : String → Option DocG) :
    Nat → List String → Option Loc → Option (Option Loc)
  | 0, _, _ => none
  | fuel + 1, queue, found =>
    match vec_pop queue with
    | none => some found
    | some (p, rest) =>
      match (fs p).bind (fun d => find_component ops lib_paths d name) with
      | some (.Found loc) => goto_loop ops lib_paths name fs fuel rest (some loc)
      | some (.ContinueSearch paths _) =>
        goto_loop ops lib_paths name fs fuel (rest ++ paths) found
      | none => goto_loop ops lib_paths name fs fuel rest found

/-- The same loop, also recording the candidate paths in the order they are
popped and searched. -/
def goto_loop_trace (ops : PathOps) (lib_paths : List String) (name : String)
    (fs : String → Option DocG) :
    Nat → List String → Option Loc → Option (Option Loc × List String)
  | 0, _, _ => none
  | fuel + 1, queue, found =>
    match vec_pop queue with
    | none => some (found, [])
    | some (p, rest) =>
      match (fs p).bind (fun d => find_component ops lib_paths d name) with
      | some (.Found loc) =>
        (goto_loop_trace ops lib_paths name fs fuel rest (some loc)).map
          (fun rt => (rt.1, p :: rt.2))
      | some (.ContinueSearch paths _) =>
        (goto_loop_trace ops lib_paths name fs fuel (rest ++ paths) found).map
          (fun rt => (rt.1, p :: rt.2))
      | none =>
        (goto_loop_trace ops lib_paths name fs fuel rest found).map
          (fun rt => (rt.1, p :: rt.2))

/-- The paths a processed candidate adds to the frontier: the resolved
paths its `ContinueSearch` carries, nothing on a local `Found` or an
unreadable file. -/
def nextPaths (ops : PathOps) (lib_paths : List String) (name : String)
    (fs : String → Option DocG) (p : String) : List String :=
  match (fs p).bind (fun d => find_component ops lib_paths d name) with
  | some (.Found _) => []
  | some (.ContinueSearch paths _) => paths
  | none => []

/-! ## Configuration updates (`Backend::did_change_configuration`) -/

/-- The JSON values `serde_json::Value` carries. -/
inductive Json where
  | null
  | bool (b : Bool)
  | num (n : Int)
  | str (s : String)
  | arr (xs : List Json)
  | obj (fields : List (String × Json))

/-- Field lookup in a JSON object. -/
def jlookup : List (String × Json) → String → Option Json
  | [], _ => none
  | (k, v) :: fs, key => if k = key then some v else jlookup fs key

/-- `CalyxLspConfig` (`main.rs`): the ordered library search paths. -/
structure CalyxLspConfig where
  library_paths : List String
deriving Repr, DecidableEq

/-- `Config` (`main.rs`). -/
structure Config where
  calyx_lsp : CalyxLspConfig
deriving Repr, DecidableEq

/-- The `Default` config: the single `~/.calyx` library root. -/
def defaultConfig : Config := ⟨⟨["~/.calyx"]⟩⟩

/-- Serde deserialization of a JSON array of strings. -/
def deStringList : Json → Except String (List String)
  | .arr xs =>
    xs.mapM (fun j =>
      match j with
      | .str s => Except.ok s
      | _ => Except.error "invalid type: expected a string")
  | _ => Except.error "invalid type: expected a sequence"

/-- Serde-derived deserialization of `CalyxLspConfig`: requires the
`library-paths` field (no `#[serde(default)]` in the source). -/
def deCalyxLspConfig : Json → Except String CalyxLspConfig
  | .obj fs =>
    match jlookup fs "library-paths" with
    | some v => (deStringList v).map (fun l => ⟨l⟩)
    | none => Except.error "missing field library-paths"
  | _ => Except.error "invalid type: expected a map"

/-- Serde-derived deserialization of `Config`: requires the `calyx-lsp`
field. -/
def deConfig : Json → Except String Config
  | .obj fs =>
    match jlookup fs "calyx-lsp" with
    | some v => (deCalyxLspConfig v).map (fun c => ⟨c⟩)
    | none => Except.error "missing field calyx-lsp"
  | _ => Except.error "invalid type: expected a map"

/-- `Backend::did_change_configuration`: deserializes the incoming settings
and stores them; the source calls `.unwrap()` on the deserialization result,
so a failure is a panic — modelled as `Except.error` — rather than keeping
the previous configuration. -/
def did_change_configuration (_current : Config) (settings : Json) :
    Except String Config :=
  match deConfig settings with
  | .ok c => .ok c
  | .error e => .error e

/-! ## Lemmas about the capture map -/

theorem mlookup_mapPush (m : List (String × List TSNode)) (a k : String)
    (v : TSNode) :
    mlookup (mapPush m a v) k =
      if a = k then
        match mlookup m k with
        | some l => some (l ++ [v])
        | none => some [v]
      else mlookup m k := by
  induction m with
  | nil =>
    by_cases hak : a = k <;> simp [mapPush, mlookup, hak]
  | cons hd tl ih =>
    obtain ⟨k1, l⟩ := hd
    by_cases h1 : k1 = a
    · subst h1
      by_cases hak : k1 = k <;> simp [mapPush, mlookup, hak]
    · by_cases h2 : k1 = k
      · subst h2
        simp only [mapPush, if_neg h1, mlookup, if_pos rfl]
        have hak : a ≠ k1 := fun h => h1 h.symm
        simp [hak]
      · simp [mapPush, if_neg h1, mlookup, if_neg h2, ih]

theorem foldl_mapPush_lookup (bs : List (String × TSNode))
    (m : List (String × List TSNode)) (k : String) (l : List TSNode)
    (hm : mlookup m k = some l) :
    mlookup (bs.foldl (fun m b => mapPush m b.1 b.2) m) k =
      some (l ++ bs.filterMap (fun b => if b.1 = k then some b.2 else none)) := by
  induction bs generalizing m l with
  | nil => simpa using hm
  | cons b bs ih =>
    obtain ⟨a, v⟩ := b
    by_cases hak : a = k
    · subst hak
      have h1 : mlookup (mapPush m a v) a = some (l ++ [v]) := by
        rw [mlookup_mapPush, if_pos rfl, hm]
      simpa using ih (mapPush m a v) (l ++ [v]) h1
    · have h1 : mlookup (mapPush m a v) k = some l := by
        rw [mlookup_mapPush, if_neg hak, hm]
      simpa [hak] using ih (mapPush m a v) l h1

theorem mlookup_init_mem (names : List String) (k : String)
    (hk : k ∈ names) :
    mlookup (names.map (fun n => (n, ([] : List TSNode)))) k = some [] := by
  induction names with
  | nil => cases hk
  | cons n ns ih =>
    by_cases h : n = k
    · simp [mlookup, h]
    · have : k ∈ ns := by
        rcases List.mem_cons.mp hk with h1 | h1
        · exact absurd h1.symm h
        · exact h1
      simp [mlookup, h, ih this]

/-- The guarantee of `Document::captures`: every capture name of the pattern
is a key, bound to exactly the nodes that name captured (empty when it
captured nothing). -/
theorem captures_lookup (ps : List Pat) (root : TSNode) (name : String)
    (h : name ∈ capNamesList ps) :
    mlookup (captures ps root) name = some (capturedNodes ps root name) := by
  unfold captures capturedNodes
  exact foldl_mapPush_lookup _ _ _ _ (mlookup_init_mem _ _ h)

theorem capGet_eq (ps : List Pat) (root : TSNode) (name : String)
    (h : name ∈ capNamesList ps) :
    capGet ps root name = capturedNodes ps root name := by
  unfold capGet
  rw [captures_lookup ps root name h]
  rfl

/-! ## Lemmas about the `HashMap` collect model -/

theorem keys_hmInsert {α : Type} (m : List (String × α)) (k : String) (v : α) :
    (hmInsert m k v).map Prod.fst =
      if k ∈ m.map Prod.fst then m.map Prod.fst else m.map Prod.fst ++ [k] := by
  induction m with
  | nil => simp [hmInsert]
  | cons hd tl ih =>
    obtain ⟨k1, v1⟩ := hd
    by_cases h : k1 = k
    · subst h
      simp [hmInsert]
    · have hne : ¬k = k1 := fun hh => h hh.symm
      by_cases hmem : k ∈ tl.map Prod.fst <;>
        simp [hmInsert, h, ih, hmem, hne]

theorem hmInsert_not_mem {α : Type} (m : List (String × α)) (k : String)
    (v : α) (h : k ∉ m.map Prod.fst) : hmInsert m k v = m ++ [(k, v)] := by
  induction m with
  | nil => simp [hmInsert]
  | cons hd tl ih =>
    obtain ⟨k1, v1⟩ := hd
    have h1 : k1 ≠ k := by
      intro hh
      exact h (by simp [hh])
    have h2 : k ∉ tl.map Prod.fst := fun hh => h (by simp [hh])
    simp [hmInsert, h1, ih h2]

theorem buildHashMap_keys_nodup {α : Type} (l : List (String × α)) :
    ((buildHashMap l).map Prod.fst).Nodup := by
  suffices h : ∀ m : List (String × α), (m.map Prod.fst).Nodup →
      ((l.foldl (fun m kv => hmInsert m kv.1 kv.2) m).map Prod.fst).Nodup by
    exact h [] (by simp)
  induction l with
  | nil => intro m hm; simpa using hm
  | cons kv l ih =>
    intro m hm
    refine ih (hmInsert m kv.1 kv.2) ?_
    rw [keys_hmInsert]
    by_cases hmem : kv.1 ∈ m.map Prod.fst
    · simpa [hmem] using hm
    · simp only [if_neg hmem]
      exact List.Nodup.append hm (List.nodup_singleton _)
        (by simpa using fun h => hmem h)

theorem foldl_hmInsert_disjoint {α : Type} (l : List (String × α)) :
    ∀ m : List (String × α),
      (∀ k ∈ l.map Prod.fst, k ∉ m.map Prod.fst) →
      (l.map Prod.fst).Nodup →
      l.foldl (fun m kv => hmInsert m kv.1 kv.2) m = m ++ l := by
  induction l with
  | nil => intro m _ _; simp
  | cons kv l ih =>
    intro m hdisj hnd
    have h1 : kv.1 ∉ m.map Prod.fst := hdisj kv.1 (by simp)
    have step : hmInsert m kv.1 kv.2 = m ++ [(kv.1, kv.2)] :=
      hmInsert_not_mem m kv.1 kv.2 h1
    have hnd0 : kv.1 ∉ l.map Prod.fst ∧ (l.map Prod.fst).Nodup := by
      rw [List.map_cons] at hnd
      exact List.nodup_cons.mp hnd
    have hnd' : (l.map Prod.fst).Nodup := hnd0.2
    have hdisj' : ∀ k ∈ l.map Prod.fst, k ∉ (m ++ [(kv.1, kv.2)]).map Prod.fst := by
      intro k hk
      simp only [List.map_append, List.mem_append]
      rintro (hkm | hkm)
      · exact hdisj k (by simp [hk]) hkm
      · have hk1 : k = kv.1 := by simpa using hkm
        exact hnd0.1 (hk1 ▸ hk)
    calc (kv :: l).foldl (fun m kv => hmInsert m kv.1 kv.2) m
        = l.foldl (fun m kv => hmInsert m kv.1 kv.2) (m ++ [(kv.1, kv.2)]) := by
          simp [step]
      _ = (m ++ [(kv.1, kv.2)]) ++ l := ih (m ++ [(kv.1, kv.2)]) hdisj' hnd'
      _ = m ++ kv :: l := by simp

theorem buildHashMap_of_nodup {α : Type} (l : List (String × α))
    (h : (l.map Prod.fst).Nodup) : buildHashMap l = l := by
  simpa [buildHashMap] using foldl_hmInsert_disjoint l [] (by simp) h

/-! ## Computing captures over grammar-shaped trees -/

/-- The bindings all matches over a forest contribute, in tree order. -/
def bindingsOfForest (ps : List Pat) (l : List TSNode) :
    List (String × TSNode) :=
  ((preorderList l).flatMap (fun d => ps.flatMap (fun p => matchPat p d))).flatten

theorem allBindings_mk (ps : List Pat) (k t : String) (cs : List TSNode) :
    allBindings ps (.mk k t cs) =
      (ps.flatMap (fun p => matchPat p (.mk k t cs))).flatten ++
        bindingsOfForest ps cs := by
  simp [allBindings, allMatches, bindingsOfForest, preorder]

theorem bindingsOfForest_nil (ps : List Pat) : bindingsOfForest ps [] = [] := by
  simp [bindingsOfForest, preorderList]

theorem bindingsOfForest_cons (ps : List Pat) (n : TSNode) (l : List TSNode) :
    bindingsOfForest ps (n :: l) =
      allBindings ps n ++ bindingsOfForest ps l := by
  simp [bindingsOfForest, allBindings, allMatches, preorderList]

theorem capturedNodes_eq_filter (ps : List Pat) (root : TSNode)
    (name : String) :
    capturedNodes ps root name =
      (allBindings ps root).filterMap
        (fun b => if b.1 = name then some b.2 else none) := rfl

theorem matchPat_kind_ne (p : Pat) (n : TSNode) (h : n.kind ≠ p.kind) :
    matchPat p n = [] := by
  obtain ⟨k, c, ps⟩ := p
  obtain ⟨nk, nt, ncs⟩ := n
  have hne : nk ≠ k := by simpa [TSNode.kind, Pat.kind] using h
  simp [matchPat, hne]

/-- Single-binding computations of the leaf queries on shaped leaves. -/
theorem allBindings_idQ_identN (s : String) :
    allBindings [idQ] (identN s) = [("id", identN s)] := by
  simp [identN, allBindings_mk, bindingsOfForest_nil, idQ, matchPat,
    seqMatches]

theorem allBindings_idQ_numN (s : String) :
    allBindings [idQ] (numN s) = [] := by
  simp [numN, allBindings_mk, bindingsOfForest_nil, idQ, matchPat]

theorem allBindings_idQ_ioPortN (p : String × String) :
    allBindings [idQ] (ioPortN p) = [("id", identN p.1)] := by
  rw [ioPortN, allBindings_mk, bindingsOfForest_cons, bindingsOfForest_cons,
    bindingsOfForest_nil, allBindings_idQ_identN, allBindings_idQ_numN]
  simp [idQ, matchPat]

theorem allBindings_idQ_ioPortListN (l : List (String × String)) :
    allBindings [idQ] (ioPortListN l) = l.map (fun p => ("id", identN p.1)) := by
  rw [ioPortListN, allBindings_mk]
  simp only [List.flatMap_cons, List.flatMap_nil,
    matchPat_kind_ne idQ (TSNode.mk "io_port_list" "" (l.map ioPortN))
      (by simp [idQ, Pat.kind, TSNode.kind]),
    List.append_nil, List.flatten_nil, List.nil_append]
  induction l with
  | nil => simp [bindingsOfForest_nil]
  | cons p l ih =>
    rw [List.map_cons, bindingsOfForest_cons, allBindings_idQ_ioPortN, ih]
    simp

theorem allBindings_cellQ_cellAssignN (c : String × String) :
    allBindings [cellQ] (cellAssignN c) =
      [("name", identN c.1), ("cell", identN c.2)] := by
  simp [cellAssignN, identN, allBindings_mk, bindingsOfForest_cons,
    bindingsOfForest_nil, cellQ, matchPat, seqMatches]

theorem allBindings_cellQ_cellsN (c : List (String × String)) :
    allBindings [cellQ] (cellsN c) =
      c.flatMap (fun p => [("name", identN p.1), ("cell", identN p.2)]) := by
  rw [cellsN, allBindings_mk]
  simp only [List.flatMap_cons, List.flatMap_nil,
    matchPat_kind_ne cellQ (TSNode.mk "cells" "" (c.map cellAssignN))
      (by simp [cellQ, Pat.kind, TSNode.kind]),
    List.append_nil, List.flatten_nil, List.nil_append]
  induction c with
  | nil => simp [bindingsOfForest_nil]
  | cons p c ih =>
    rw [List.map_cons, bindingsOfForest_cons, allBindings_cellQ_cellAssignN, ih]
    simp

theorem allBindings_groupQ_groupN (g : String) :
    allBindings [groupQ] (groupN g) = [("id", identN g)] := by
  simp [groupN, identN, allBindings_mk, bindingsOfForest_cons,
    bindingsOfForest_nil, groupQ, matchPat, seqMatches]

theorem allBindings_groupQ_wiresN (gs : List String) :
    allBindings [groupQ] (wiresN gs) = gs.map (fun g => ("id", identN g)) := by
  rw [wiresN, allBindings_mk]
  simp only [List.flatMap_cons, List.flatMap_nil,
    matchPat_kind_ne groupQ
      (TSNode.mk "wires" "" [TSNode.mk "wires_inner" "" (gs.map groupN)])
      (by simp [groupQ, Pat.kind, TSNode.kind]),
    List.append_nil, List.flatten_nil, List.nil_append,
    bindingsOfForest_cons, bindingsOfForest_nil]
  rw [allBindings_mk]
  simp only [List.flatMap_cons, List.flatMap_nil,
    matchPat_kind_ne groupQ (TSNode.mk "wires_inner" "" (gs.map groupN))
      (by simp [groupQ, Pat.kind, TSNode.kind]),
    List.append_nil, List.flatten_nil, List.nil_append]
  induction gs with
  | nil => simp [bindingsOfForest_nil]
  | cons g gs ih =>
    rw [List.map_cons, bindingsOfForest_cons, allBindings_groupQ_groupN, ih]
    simp

/-! ## The declaration-level reading of a file -/

/-- A top-level declaration of a Calyx file, as the spec reads it: a
component with its name, ports (name/width pairs), cells and groups, or a
primitive with its name and ports. -/
inductive Decl where
  | comp (name : String) (ins outs : List (String × String))
      (cells : List (String × String)) (groups : List String)
  | prim (name : String) (ins outs : List (String × String))
deriving Repr, DecidableEq

/-- The concrete syntax tree the parsing oracle produces for a declaration. -/
def declTree : Decl → TSNode
  | .comp n i o c g => componentN n i o c g
  | .prim n i o => primitiveN n i o

/-- Modelled from the spec: the Component Table entry a declaration should
produce — "one entry per declared component/primitive with its input ports,
output ports, named cell instances, and named groups" — restricted here to
components, which is what the code actually enters. -/
def declEntry : Decl → Option (String × PrivateComponentInfo)
  | .comp n i o c g =>
    some (n, { inputs := i.map Prod.fst, outputs := o.map Prod.fst,
               cells := buildHashMap c, groups := g })
  | .prim _ _ _ => none

/-- The declared name, for components only. -/
def declName : Decl → Option String
  | .comp n _ _ _ _ => some n
  | .prim _ _ _ => none

/-- No node of the subtree has kind `component`. -/
def NoComp (n : TSNode) : Prop := ∀ x ∈ preorder n, x.kind ≠ "component"

theorem mem_preorderList {x : TSNode} {l : List TSNode} :
    x ∈ preorderList l ↔ ∃ c ∈ l, x ∈ preorder c := by
  induction l with
  | nil => simp [preorderList]
  | cons n ns ih => simp [preorderList, ih]

theorem noComp_mk {k t : String} {cs : List TSNode} (hk : k ≠ "component")
    (hcs : ∀ c ∈ cs, NoComp c) : NoComp (.mk k t cs) := by
  intro x hx
  rw [preorder] at hx
  rcases List.mem_cons.mp hx with h | h
  · subst h; simpa [TSNode.kind] using hk
  · obtain ⟨c, hc, hxc⟩ := mem_preorderList.mp h
    exact hcs c hc x hxc

theorem noComp_identN (s : String) : NoComp (identN s) :=
  noComp_mk (by decide) (by simp)

theorem noComp_numN (s : String) : NoComp (numN s) :=
  noComp_mk (by decide) (by simp)

theorem noComp_ioPortN (p : String × String) : NoComp (ioPortN p) :=
  noComp_mk (by decide) (by
    rintro c hc
    rcases List.mem_cons.mp hc with h | h
    · exact h ▸ noComp_identN p.1
    · simp only [List.mem_singleton] at h
      exact h ▸ noComp_numN p.2)

theorem noComp_ioPortListN (l : List (String × String)) :
    NoComp (ioPortListN l) :=
  noComp_mk (by decide) (by
    intro c hc
    obtain ⟨p, _, rfl⟩ := List.mem_map.mp hc
    exact noComp_ioPortN p)

theorem noComp_signatureN (i o : List (String × String)) :
    NoComp (signatureN i o) :=
  noComp_mk (by decide) (by
    rintro c hc
    rcases List.mem_cons.mp hc with h | h
    · exact h ▸ noComp_ioPortListN i
    · simp only [List.mem_singleton] at h
      exact h ▸ noComp_ioPortListN o)

theorem noComp_cellAssignN (p : String × String) : NoComp (cellAssignN p) :=
  noComp_mk (by decide) (by
    rintro c hc
    rcases List.mem_cons.mp hc with h | h
    · exact h ▸ noComp_identN p.1
    · simp only [List.mem_singleton] at h
      exact h ▸ noComp_mk (by decide) (by
        intro d hd
        simp only [List.mem_singleton] at hd
        exact hd ▸ noComp_identN p.2))

theorem noComp_cellsN (c : List (String × String)) : NoComp (cellsN c) :=
  noComp_mk (by decide) (by
    intro d hd
    obtain ⟨p, _, rfl⟩ := List.mem_map.mp hd
    exact noComp_cellAssignN p)

theorem noComp_groupN (g : String) : NoComp (groupN g) :=
  noComp_mk (by decide) (by
    intro d hd
    simp only [List.mem_singleton] at hd
    exact hd ▸ noComp_identN g)

theorem noComp_wiresN (gs : List String) : NoComp (wiresN gs) :=
  noComp_mk (by decide) (by
    intro d hd
    simp only [List.mem_singleton] at hd
    subst hd
    exact noComp_mk (by decide) (by
      intro e he
      obtain ⟨g, _, rfl⟩ := List.mem_map.mp he
      exact noComp_groupN g))

theorem noComp_controlN : NoComp controlN :=
  noComp_mk (by decide) (by simp)

theorem noComp_primitiveN (n : String) (i o : List (String × String)) :
    NoComp (primitiveN n i o) :=
  noComp_mk (by decide) (by
    rintro c hc
    rcases List.mem_cons.mp hc with h | h
    · exact h ▸ noComp_identN n
    · simp only [List.mem_singleton] at h
      exact h ▸ noComp_signatureN i o)

theorem allBindings_bigQ_of_noComp {n : TSNode} (h : NoComp n) :
    allBindings [bigQ] n = [] := by
  have : ∀ x ∈ preorder n, matchPat bigQ x = [] := by
    intro x hx
    exact matchPat_kind_ne bigQ x (by
      have := h x hx
      simpa [bigQ, Pat.kind] using this)
  simp only [allBindings, allMatches]
  rw [List.flatten_eq_nil_iff]
  intro bs hbs
  obtain ⟨d, hd, hbs2⟩ := List.mem_flatMap.mp hbs
  rcases List.mem_flatMap.mp hbs2 with ⟨p, hp, hm⟩
  simp only [List.mem_singleton] at hp
  subst hp
  rw [this d hd] at hm
  cases hm

theorem bindingsOfForest_bigQ_of_noComp {l : List TSNode}
    (h : ∀ c ∈ l, NoComp c) : bindingsOfForest [bigQ] l = [] := by
  induction l with
  | nil => exact bindingsOfForest_nil _
  | cons n ns ih =>
    rw [bindingsOfForest_cons,
      allBindings_bigQ_of_noComp (h n (List.mem_cons_self n ns)),
      ih (fun c hc => h c (List.mem_cons_of_mem n hc))]
    rfl

theorem matchPat_bigQ_componentN (n : String) (i o c : List (String × String))
    (g : List String) :
    matchPat bigQ (componentN n i o c g) =
      [[("comp", identN n), ("inputs", ioPortListN i),
        ("outputs", ioPortListN o), ("cells", cellsN c),
        ("wires", wiresN g)]] := by
  simp [bigQ, componentN, identN, numN, signatureN, ioPortListN, cellsN,
    wiresN, controlN, matchPat, seqMatches]

theorem allBindings_bigQ_componentN (n : String) (i o c : List (String × String))
    (g : List String) :
    allBindings [bigQ] (componentN n i o c g) =
      [("comp", identN n), ("inputs", ioPortListN i), ("outputs", ioPortListN o),
       ("cells", cellsN c), ("wires", wiresN g)] := by
  rw [componentN, allBindings_mk]
  rw [bindingsOfForest_bigQ_of_noComp (by
    rintro x hx
    rcases List.mem_cons.mp hx with h | hx
    · exact h ▸ noComp_identN n
    rcases List.mem_cons.mp hx with h | hx
    · exact h ▸ noComp_signatureN i o
    rcases List.mem_cons.mp hx with h | hx
    · exact h ▸ noComp_cellsN c
    rcases List.mem_cons.mp hx with h | hx
    · exact h ▸ noComp_wiresN g
    simp only [List.mem_singleton] at hx
    exact hx ▸ noComp_controlN)]
  have := matchPat_bigQ_componentN n i o c g
  simp only [List.flatMap_cons, List.flatMap_nil, List.append_nil]
  rw [componentN] at this
  rw [this]
  simp

theorem allBindings_bigQ_primitiveN (n : String) (i o : List (String × String)) :
    allBindings [bigQ] (primitiveN n i o) = [] :=
  allBindings_bigQ_of_noComp (noComp_primitiveN n i o)

/-- The bindings one declaration's subtree contributes to the big query. -/
def declBindings : Decl → List (String × TSNode)
  | .comp n i o c g =>
    [("comp", identN n), ("inputs", ioPortListN i), ("outputs", ioPortListN o),
     ("cells", cellsN c), ("wires", wiresN g)]
  | .prim _ _ _ => []

theorem allBindings_bigQ_file (decls : List Decl) :
    allBindings [bigQ] (sourceFileN (decls.map declTree)) =
      decls.flatMap declBindings := by
  rw [sourceFileN, allBindings_mk]
  simp only [List.flatMap_cons, List.flatMap_nil,
    matchPat_kind_ne bigQ (TSNode.mk "source_file" "" (decls.map declTree))
      (by simp [bigQ, Pat.kind, TSNode.kind]),
    List.append_nil, List.flatten_nil, List.nil_append]
  induction decls with
  | nil => simp [bindingsOfForest_nil]
  | cons d ds ih =>
    rw [List.map_cons, bindingsOfForest_cons, ih, List.flatMap_cons]
    congr 1
    cases d with
    | comp n i o c g =>
      simpa [declTree, declBindings] using allBindings_bigQ_componentN n i o c g
    | prim n i o =>
      simpa [declTree, declBindings] using allBindings_bigQ_primitiveN n i o

/-! ## The Component Table at declaration level -/

theorem capGet_idQ_ioPortListN (l : List (String × String)) :
    capGet [idQ] (ioPortListN l) "id" = l.map (fun p => identN p.1) := by
  rw [capGet_eq _ _ _ (by simp [capNamesList, capNames, idQ]),
    capturedNodes_eq_filter, allBindings_idQ_ioPortListN]
  simp only [List.filterMap_map, Function.comp_def, reduceIte]
  induction l with
  | nil => rfl
  | cons p l ih => simp [ih]

theorem capGet_cellQ_cellsN_name (c : List (String × String)) :
    capGet [cellQ] (cellsN c) "name" = c.map (fun p => identN p.1) := by
  rw [capGet_eq _ _ _ (by simp [capNamesList, capNames, cellQ]),
    capturedNodes_eq_filter, allBindings_cellQ_cellsN]
  induction c with
  | nil => simp
  | cons p c ih => simp [ih]

theorem capGet_cellQ_cellsN_cell (c : List (String × String)) :
    capGet [cellQ] (cellsN c) "cell" = c.map (fun p => identN p.2) := by
  rw [capGet_eq _ _ _ (by simp [capNamesList, capNames, cellQ]),
    capturedNodes_eq_filter, allBindings_cellQ_cellsN]
  induction c with
  | nil => simp
  | cons p c ih => simp [ih]

theorem capGet_groupQ_wiresN (gs : List String) :
    capGet [groupQ] (wiresN gs) "id" = gs.map identN := by
  rw [capGet_eq _ _ _ (by simp [capNamesList, capNames, groupQ]),
    capturedNodes_eq_filter, allBindings_groupQ_wiresN]
  simp only [List.filterMap_map, Function.comp_def, reduceIte]
  induction gs with
  | nil => rfl
  | cons g gs ih => simp [ih]

theorem entryOfMatch_decl (n : String) (i o c : List (String × String))
    (g : List String) :
    entryOfMatch (identN n, ioPortListN i, ioPortListN o, cellsN c, wiresN g) =
      (n, { inputs := i.map Prod.fst, outputs := o.map Prod.fst,
            cells := buildHashMap c, groups := g }) := by
  rw [entryOfMatch]
  simp only [capGet_idQ_ioPortListN, capGet_cellQ_cellsN_name,
    capGet_cellQ_cellsN_cell, capGet_groupQ_wiresN, List.zip_map']
  simp [List.map_map, Function.comp_def, node_text, identN, Prod.mk.eta]

theorem capturedNodes_bigQ_file (decls : List Decl) (name : String) :
    capturedNodes [bigQ] (sourceFileN (decls.map declTree)) name =
      decls.flatMap (fun d =>
        (declBindings d).filterMap
          (fun b => if b.1 = name then some b.2 else none)) := by
  rw [capturedNodes_eq_filter, allBindings_bigQ_file]
  induction decls with
  | nil => simp
  | cons d ds ih => simp [ih]

theorem zip5_entries (decls : List Decl) :
    List.map entryOfMatch
      (zip5
        (decls.flatMap (fun d =>
          (declBindings d).filterMap
            (fun b => if b.1 = "comp" then some b.2 else none)))
        (decls.flatMap (fun d =>
          (declBindings d).filterMap
            (fun b => if b.1 = "inputs" then some b.2 else none)))
        (decls.flatMap (fun d =>
          (declBindings d).filterMap
            (fun b => if b.1 = "outputs" then some b.2 else none)))
        (decls.flatMap (fun d =>
          (declBindings d).filterMap
            (fun b => if b.1 = "cells" then some b.2 else none)))
        (decls.flatMap (fun d =>
          (declBindings d).filterMap
            (fun b => if b.1 = "wires" then some b.2 else none)))) =
      decls.filterMap declEntry := by
  induction decls with
  | nil => simp [zip5]
  | cons d ds ih =>
    cases d with
    | comp n i o c g =>
      have h1 : (declBindings (Decl.comp n i o c g)).filterMap
          (fun b => if b.1 = "comp" then some b.2 else none) = [identN n] := by
        simp [declBindings]
      have h2 : (declBindings (Decl.comp n i o c g)).filterMap
          (fun b => if b.1 = "inputs" then some b.2 else none) =
            [ioPortListN i] := by
        simp [declBindings]
      have h3 : (declBindings (Decl.comp n i o c g)).filterMap
          (fun b => if b.1 = "outputs" then some b.2 else none) =
            [ioPortListN o] := by
        simp [declBindings]
      have h4 : (declBindings (Decl.comp n i o c g)).filterMap
          (fun b => if b.1 = "cells" then some b.2 else none) = [cellsN c] := by
        simp [declBindings]
      have h5 : (declBindings (Decl.comp n i o c g)).filterMap
          (fun b => if b.1 = "wires" then some b.2 else none) = [wiresN g] := by
        simp [declBindings]
      rw [List.flatMap_cons, h1, List.flatMap_cons, h2, List.flatMap_cons, h3,
        List.flatMap_cons, h4, List.flatMap_cons, h5]
      simp only [List.singleton_append]
      rw [zip5, List.map_cons, ih, entryOfMatch_decl]
      simp [declEntry]
    | prim n i o =>
      simpa [declBindings, declEntry] using ih

theorem componentEntries_file (decls : List Decl) :
    componentEntries (sourceFileN (decls.map declTree)) =
      decls.filterMap declEntry := by
  rw [componentEntries]
  have hget : ∀ nm, nm ∈ capNamesList [bigQ] →
      (mlookup (captures [bigQ] (sourceFileN (decls.map declTree))) nm).getD [] =
        capturedNodes [bigQ] (sourceFileN (decls.map declTree)) nm := by
    intro nm hnm
    rw [captures_lookup _ _ _ hnm]
    rfl
  rw [hget "comp" (by simp [capNamesList, capNames, bigQ]),
    hget "inputs" (by simp [capNamesList, capNames, bigQ]),
    hget "outputs" (by simp [capNamesList, capNames, bigQ]),
    hget "cells" (by simp [capNamesList, capNames, bigQ]),
    hget "wires" (by simp [capNamesList, capNames, bigQ])]
  simp only [capturedNodes_bigQ_file]
  exact zip5_entries decls

theorem declEntry_keys (decls : List Decl) :
    (decls.filterMap declEntry).map Prod.fst = decls.filterMap declName := by
  induction decls with
  | nil => rfl
  | cons d ds ih =>
    cases d with
    | comp n i o c g => simp [declEntry, declName, ih]
    | prim n i o => simp [declEntry, declName, ih]

/-! ## Termination of the frontier loop on acyclic import graphs -/

/-- `q` is a frontier successor of `p`: searching `p` enqueues `q`. -/
def stepRel (ops : PathOps) (lib_paths : List String) (name : String)
    (fs : String → Option DocG) (q p : String) : Prop :=
  q ∈ nextPaths ops lib_paths name fs p

/-- The loop terminates from this queue whatever the running answer is. -/
def LoopTerm (ops : PathOps) (lib_paths : List String) (name : String)
    (fs : String → Option DocG) (queue : List String) : Prop :=
  ∀ found, ∃ fuel, (goto_loop ops lib_paths name fs fuel queue found).isSome

theorem vec_pop_append {α : Type} (l : List α) (x : α) :
    vec_pop (l ++ [x]) = some (x, l) := by
  induction l with
  | nil => rfl
  | cons a as ih => simp [vec_pop, ih]

theorem vec_pop_cons_isSome {α : Type} (b : α) (bs : List α) :
    (vec_pop (b :: bs)).isSome := by
  rw [vec_pop]
  cases h : vec_pop bs with
  | none => rfl
  | some yr => rfl

theorem vec_pop_eq_append {α : Type} :
    ∀ (l rest : List α) (x : α), vec_pop l = some (x, rest) → l = rest ++ [x] := by
  intro l
  induction l with
  | nil => intro rest x h; cases h
  | cons a as ih =>
    intro rest x h
    rw [vec_pop] at h
    cases hvp : vec_pop as with
    | none =>
      have has : as = [] := by
        cases as with
        | nil => rfl
        | cons b bs =>
          exfalso
          have hs := vec_pop_cons_isSome b bs
          rw [hvp] at hs
          cases hs
      subst has
      simp only [vec_pop] at h
      simp only [Option.some.injEq, Prod.mk.injEq] at h
      rw [← h.1, ← h.2]
      rfl
    | some yr =>
      obtain ⟨y, r⟩ := yr
      rw [hvp] at h
      simp only [Option.some.injEq, Prod.mk.injEq] at h
      obtain ⟨hy, hrest⟩ := h
      subst hy
      subst hrest
      rw [ih r y hvp]
      rfl

theorem loopTerm_nil (ops : PathOps) (lib_paths : List String) (name : String)
    (fs : String → Option DocG) : LoopTerm ops lib_paths name fs [] := by
  intro found
  exact ⟨1, by simp [goto_loop, vec_pop]⟩

theorem loopTerm_snoc (ops : PathOps) (lib_paths : List String) (name : String)
    (fs : String → Option DocG) (p : String)
    (a : Acc (stepRel ops lib_paths name fs) p) :
    ∀ queue, LoopTerm ops lib_paths name fs queue →
      LoopTerm ops lib_paths name fs (queue ++ [p]) := by
  induction a with
  | intro p _ ih =>
    intro queue hq found
    have hpush : ∀ ps, (∀ q ∈ ps, stepRel ops lib_paths name fs q p) →
        ∀ base, LoopTerm ops lib_paths name fs base →
          LoopTerm ops lib_paths name fs (base ++ ps) := by
      intro ps
      induction ps with
      | nil => intro _ base hb; simpa using hb
      | cons q qs ihq =>
        intro hmem base hb
        have h1 : LoopTerm ops lib_paths name fs (base ++ [q]) :=
          ih q (hmem q (List.mem_cons_self q qs)) base hb
        have h2 := ihq (fun x hx => hmem x (List.mem_cons_of_mem q hx))
          (base ++ [q]) h1
        simpa [List.append_assoc] using h2
    cases hres : (fs p).bind (fun d => find_component ops lib_paths d name) with
    | none =>
      obtain ⟨fuel0, hf⟩ := hq found
      refine ⟨fuel0 + 1, ?_⟩
      simp only [goto_loop, vec_pop_append, hres]
      exact hf
    | some r =>
      cases r with
      | Found loc =>
        obtain ⟨fuel0, hf⟩ := hq (some loc)
        refine ⟨fuel0 + 1, ?_⟩
        simp only [goto_loop, vec_pop_append, hres]
        exact hf
      | ContinueSearch paths data =>
        have hstep : ∀ q ∈ paths, stepRel ops lib_paths name fs q p := by
          intro q hqp
          unfold stepRel nextPaths
          rw [hres]
          exact hqp
        obtain ⟨fuel0, hf⟩ := hpush paths hstep queue hq found
        refine ⟨fuel0 + 1, ?_⟩
        simp only [goto_loop, vec_pop_append, hres]
        exact hf

theorem loopTerm_of_acc (ops : PathOps) (lib_paths : List String)
    (name : String) (fs : String → Option DocG) (queue : List String)
    (h : ∀ p ∈ queue, Acc (stepRel ops lib_paths name fs) p) :
    LoopTerm ops lib_paths name fs queue := by
  suffices hgen : ∀ (ps : List String),
      (∀ p ∈ ps, Acc (stepRel ops lib_paths name fs) p) →
      ∀ base, LoopTerm ops lib_paths name fs base →
        LoopTerm ops lib_paths name fs (base ++ ps) by
    simpa using hgen queue h [] (loopTerm_nil ops lib_paths name fs)
  intro ps
  induction ps with
  | nil => intro _ base hb; simpa using hb
  | cons q qs ihq =>
    intro hacc base hb
    have h1 : LoopTerm ops lib_paths name fs (base ++ [q]) :=
      loopTerm_snoc ops lib_paths name fs q (hacc q (List.mem_cons_self q qs))
        base hb
    have h2 := ihq (fun x hx => hacc x (List.mem_cons_of_mem q hx))
      (base ++ [q]) h1
    simpa [List.append_assoc] using h2

/-! ## Concrete worlds used by the claim instances -/

/-- Path collaborators with plain concatenation joining, identity
resolution, and every path existing. -/
def opsId : PathOps := ⟨fun r i => r ++ i, id, fun _ => true⟩

/-- Path collaborators joining with a separator. -/
def opsSlash : PathOps := ⟨fun r i => r ++ "/" ++ i, id, fun _ => true⟩

/-- File `A` of a two-file import cycle: no components, imports `B`. -/
def docACyc : DocG := ⟨"A", "", sourceFileN [importDeclN "B"]⟩

/-- File `B` of a two-file import cycle: no components, imports `A`. -/
def docBCyc : DocG := ⟨"B", "", sourceFileN [importDeclN "A"]⟩

/-- The cyclic two-file world. -/
def fsCyc : String → Option DocG :=
  fun p => if p = "A" then some docACyc else if p = "B" then some docBCyc else none

theorem cycLoop_none : ∀ (fuel : Nat) (found : Option Loc),
    goto_loop opsId [] "Foo" fsCyc fuel ["A"] found = none ∧
    goto_loop opsId [] "Foo" fsCyc fuel ["B"] found = none := by
  intro fuel
  induction fuel with
  | zero => intro found; exact ⟨rfl, rfl⟩
  | succ n ih => intro found; exact ⟨(ih found).2, (ih found).1⟩

/-- File `A` declaring component `Foo`. -/
def docAF : DocG := ⟨"A", "", sourceFileN [componentN "Foo" [] [] [] []]⟩

/-- File `B` declaring component `Foo` as well. -/
def docBF : DocG := ⟨"B", "", sourceFileN [componentN "Foo" [] [] [] []]⟩

/-- A two-file world in which both candidate files define the sought
component. -/
def fsBoth : String → Option DocG :=
  fun p => if p = "A" then some docAF else if p = "B" then some docBF else none

theorem goto_loop_trace_step (ops : PathOps) (lib_paths : List String)
    (name : String) (fs : String → Option DocG) (n : Nat)
    (queue rest : List String) (found : Option Loc) (p0 : String)
    (hq : vec_pop queue = some (p0, rest)) :
    goto_loop_trace ops lib_paths name fs (n + 1) queue found =
      match (fs p0).bind (fun d => find_component ops lib_paths d name) with
      | some (.Found loc) =>
        (goto_loop_trace ops lib_paths name fs n rest (some loc)).map
          (fun rt => (rt.1, p0 :: rt.2))
      | some (.ContinueSearch paths _) =>
        (goto_loop_trace ops lib_paths name fs n (rest ++ paths) found).map
          (fun rt => (rt.1, p0 :: rt.2))
      | none =>
        (goto_loop_trace ops lib_paths name fs n rest found).map
          (fun rt => (rt.1, p0 :: rt.2)) := by
  rw [goto_loop_trace, hq]

theorem vec_pop_none_eq_nil {α : Type} (l : List α) (h : vec_pop l = none) :
    l = [] := by
  cases l with
  | nil => rfl
  | cons a as =>
    exfalso
    have hs := vec_pop_cons_isSome a as
    rw [h] at hs
    cases hs

/-! ## Claims -/

/-- Claim C1: the claim says a malformed configuration update (library
search paths failing to deserialize) must not crash the server and must
leave the prior configuration in effect. The code instead calls
`serde_json::from_value(params.settings).unwrap()`, so the empty settings
object — which misses the required `calyx-lsp` field — makes the handler
panic (`Except.error` here) instead of falling back; a well-formed update
is stored normally. -/
theorem c1_config_update_panics_on_malformed_settings :
    did_change_configuration defaultConfig (Json.obj []) =
      Except.error "missing field calyx-lsp" ∧
    did_change_configuration defaultConfig
        (Json.obj [("calyx-lsp",
          Json.obj [("library-paths", Json.arr [Json.str "/lib"])])]) =
      Except.ok ⟨⟨["/lib"]⟩⟩ :=
  ⟨rfl, rfl⟩

/-- Claim C2 (counterexample): a file declaring one primitive `P`. The
code's own `Document::components` lists `P` as a declared name, but the
Component Table built by `update_component_map` is empty — the big query
matches only `component` nodes, so declared primitives get no entry,
contradicting the claim that every declared primitive has exactly one
entry. -/
theorem c2_counterexample_primitive_has_no_entry :
    components_q (sourceFileN [primitiveN "P" [("x", "32")] [("y", "32")]]) =
      [identN "P"] ∧
    component_map (sourceFileN [primitiveN "P" [("x", "32")] [("y", "32")]]) =
      [] :=
  ⟨rfl, rfl⟩

/-- Claim C2 (amended): for every full parse of a file whose declared
component names are distinct, the rebuilt Component Table contains exactly
one entry per declared component — declared primitives get no entry — each
entry holding the declaration's ordered input port names, ordered output
port names, cell-name-to-component-name map, and group-name list. -/
theorem c2_component_table_from_declarations (decls : List Decl)
    (h : (decls.filterMap declName).Nodup) :
    component_map (sourceFileN (decls.map declTree)) =
      decls.filterMap declEntry := by
  rw [component_map, componentEntries_file, buildHashMap_of_nodup]
  rw [declEntry_keys]
  exact h

/-- Claim C2 (witness): the amended theorem evaluated on a concrete file
with one component and one primitive. -/
theorem c2_witness :
    component_map (sourceFileN
        ([Decl.comp "M" [("i", "1")] [("o", "1")] [("c", "P")] ["g"],
          Decl.prim "P" [("a", "1")] [("b", "1")]].map declTree)) =
      [("M", { inputs := ["i"], outputs := ["o"], cells := [("c", "P")],
               groups := ["g"] })] := by
  rw [c2_component_table_from_declarations _ (by simp [declName, declName])]
  rfl

/-- Claim C3 (counterexample): with candidates `[A, B]`, the file popped
first (`B`) already resolves `Foo` locally (`find_component` returns
`Found`), yet the loop still pops and searches `A` afterwards — the trace
is `[B, A]` — and `A`'s location even overwrites `B`'s as the final
answer. -/
theorem c3_counterexample_search_continues_after_found :
    find_component opsId [] docBF "Foo" =
      some (.Found (("B", identN "Foo") : Loc)) ∧
    goto_loop_trace opsId [] "Foo" fsBoth 5 ["A", "B"] none =
      some (some (("A", identN "Foo") : Loc), ["B", "A"]) :=
  ⟨rfl, rfl⟩

/-- Claim C3 (amended): the goto-definition frontier loop does not stop at
the first `Found`; whenever it terminates normally it has popped and
searched every candidate that was ever in the queue — in particular every
seed candidate appears in the search trace. -/
theorem c3_loop_searches_every_candidate (ops : PathOps)
    (lib_paths : List String) (name : String) (fs : String → Option DocG) :
    ∀ (fuel : Nat) (queue : List String) (found r : Option Loc)
      (t : List String),
      goto_loop_trace ops lib_paths name fs fuel queue found = some (r, t) →
      ∀ p ∈ queue, p ∈ t := by
  intro fuel
  induction fuel with
  | zero => intro queue found r t h; cases h
  | succ n ih =>
    intro queue found r t h p hp
    cases hq : vec_pop queue with
    | none =>
      rw [vec_pop_none_eq_nil queue hq] at hp
      cases hp
    | some pr =>
      obtain ⟨p0, rest⟩ := pr
      rw [goto_loop_trace_step ops lib_paths name fs n queue rest found p0 hq]
        at h
      have hqe : queue = rest ++ [p0] := vec_pop_eq_append _ _ _ hq
      have hp' : p = p0 ∨ p ∈ rest := by
        rw [hqe] at hp
        rcases List.mem_append.mp hp with h1 | h1
        · exact Or.inr h1
        · exact Or.inl (by simpa using h1)
      cases hres : (fs p0).bind (fun d => find_component ops lib_paths d name)
        with
      | none =>
        rw [hres] at h
        obtain ⟨⟨r', t'⟩, hrec, heq⟩ := Option.map_eq_some'.mp h
        have ht : t = p0 :: t' := (congrArg Prod.snd heq).symm
        rw [ht]
        rcases hp' with h1 | h1
        · exact h1 ▸ List.mem_cons_self _ _
        · exact List.mem_cons_of_mem _ (ih rest found r' t' hrec p h1)
      | some res =>
        cases res with
        | Found loc =>
          rw [hres] at h
          obtain ⟨⟨r', t'⟩, hrec, heq⟩ := Option.map_eq_some'.mp h
          have ht : t = p0 :: t' := (congrArg Prod.snd heq).symm
          rw [ht]
          rcases hp' with h1 | h1
          · exact h1 ▸ List.mem_cons_self _ _
          · exact List.mem_cons_of_mem _ (ih rest (some loc) r' t' hrec p h1)
        | ContinueSearch paths data =>
          rw [hres] at h
          obtain ⟨⟨r', t'⟩, hrec, heq⟩ := Option.map_eq_some'.mp h
          have ht : t = p0 :: t' := (congrArg Prod.snd heq).symm
          rw [ht]
          rcases hp' with h1 | h1
          · exact h1 ▸ List.mem_cons_self _ _
          · refine List.mem_cons_of_mem _
              (ih (rest ++ paths) found r' t' hrec p ?_)
            exact List.mem_append_left _ h1

/-- Claim C3 (witness): the amended theorem applied to a one-candidate
world whose only file is unreadable. -/
theorem c3_witness : ("x" : String) ∈ ["x"] := by
  have h : goto_loop_trace opsId [] "n" (fun _ => none) 2 ["x"] none =
      some (none, ["x"]) := rfl
  exact c3_loop_searches_every_candidate opsId [] "n" (fun _ => none)
    2 ["x"] none none ["x"] h "x" (by simp)

/-- Claim C4: the goto-definition frontier loop pops candidates from the end
of the `Vec` work queue and keeps no visited set. Consequently (i) whenever
every seed's reachable frontier graph is acyclic — no infinite `stepRel`
descent, i.e. accessible — some fuel makes the loop drain the queue, (ii)
the concrete two-file cycle `A imports B, B imports A` starves the loop of
any amount of fuel, and (iii) `vec_pop` indeed removes the last element. -/
theorem c4_loop_termination_and_cycles :
    (∀ (ops : PathOps) (lib_paths : List String) (name : String)
        (fs : String → Option DocG) (queue : List String) (found : Option Loc),
        (∀ p ∈ queue, Acc (stepRel ops lib_paths name fs) p) →
        ∃ fuel, (goto_loop ops lib_paths name fs fuel queue found).isSome) ∧
    (∀ (fuel : Nat) (found : Option Loc),
        goto_loop opsId [] "Foo" fsCyc fuel ["A"] found = none) ∧
    (∀ (l : List String) (x : String), vec_pop (l ++ [x]) = some (x, l)) := by
  refine ⟨?_, ?_, ?_⟩
  · intro ops lib_paths name fs queue found h
    exact loopTerm_of_acc ops lib_paths name fs queue h found
  · intro fuel found
    exact (cycLoop_none fuel found).1
  · intro l x
    exact vec_pop_append l x

/-- Claim C4 (witness): the termination conjunct applied to a world with a
single unreadable seed, whose frontier relation is trivially accessible. -/
theorem c4_witness :
    ∃ fuel, (goto_loop opsId [] "Z" (fun _ => none) fuel ["s"] none).isSome :=
  c4_loop_termination_and_cycles.1 opsId [] "Z" (fun _ => none) ["s"] none
    (by
      intro p _
      exact Acc.intro p (fun y hy => by simp [stepRel, nextPaths] at hy))

/-- Claim C5: when the covering node's immediate parent is a `port`
reference, `thing_at_point` yields a Cell reference named by the node's own
text when a following sibling exists, a SelfPort reference when there is
neither a following nor a preceding sibling, and nothing otherwise. -/
theorem c5_port_parent_classification (v : NodeView)
    (hp : v.parentKind = some "port") :
    (v.hasNext = true → thing_at_point v = some (.Cell v.text)) ∧
    (v.hasNext = false → v.hasPrev = false →
      thing_at_point v = some (.SelfPort v.text)) ∧
    (v.hasNext = false → v.hasPrev = true → thing_at_point v = none) := by
  refine ⟨?_, ?_, ?_⟩
  · intro h1
    simp [thing_at_point, hp, h1]
  · intro h1 h2
    simp [thing_at_point, hp, h1, h2]
  · intro h1 h2
    simp [thing_at_point, hp, h1, h2]

/-- Claim C5 (witness): a `cell.port` shaped reference. -/
theorem c5_witness :
    thing_at_point ⟨some "port", true, false, "a"⟩ = some (.Cell "a") :=
  (c5_port_parent_classification ⟨some "port", true, false, "a"⟩ rfl).1 rfl

/-- Claim C6: for every query pattern and every node, every capture name
appearing anywhere in the pattern is a key of the `captures` result, bound
to exactly the nodes that capture matched — the empty list when it matched
nothing — so callers need not guard against a missing key. -/
theorem c6_captures_total (ps : List Pat) (root : TSNode) (name : String)
    (h : name ∈ capNamesList ps) :
    mlookup (captures ps root) name = some (capturedNodes ps root name) :=
  captures_lookup ps root name h

/-- Claim C6 (witness): a capture that matches nothing is still present,
bound to the empty list. -/
theorem c6_witness :
    mlookup (captures [Pat.mk "zzz" (some "x") []] (identN "a")) "x" =
      some (capturedNodes [Pat.mk "zzz" (some "x") []] (identN "a") "x") ∧
    capturedNodes [Pat.mk "zzz" (some "x") []] (identN "a") "x" = [] :=
  ⟨c6_captures_total [Pat.mk "zzz" (some "x") []] (identN "a") "x"
    (by simp [capNamesList, capNames]), rfl⟩

/-- Claim C7: import resolution enumerates `(import, root)` pairs with
the raw path string as the major key and the current directory ahead of
every library root, joins, resolves and filters by existence; with roots
`[curDir, libRoot]` and import `foo.futil` the candidates are exactly
`curDir/foo.futil` then `libRoot/foo.futil`. -/
theorem c7_import_resolution_order :
    (∀ (ops : PathOps) (cur_dir : String) (lib_paths imps : List String),
        resolve_imports ops cur_dir lib_paths imps =
          imps.flatMap (fun i =>
            ((cur_dir :: lib_paths).map
              (fun root => ops.res (ops.join root i))).filter ops.exs)) ∧
    resolve_imports opsSlash "/cur" ["/lib"] ["foo.futil"] =
      ["/cur/foo.futil", "/lib/foo.futil"] := by
  constructor
  · intro ops cur_dir lib_paths imps
    induction imps with
    | nil => rfl
    | cons i is ih =>
      simp only [resolve_imports, cartProd, List.flatMap_cons, List.map_append,
        List.filter_append, List.map_map]
      simp only [resolve_imports, cartProd] at ih
      rw [ih]
      simp [Function.comp_def]
  · rfl

/-- The C8 scenario document: component `main` declares cell `a = Adder()`
and a group `g`; component `Adder` declares inputs `left, right` and
output `out`. -/
def docC8 : TSNode :=
  sourceFileN
    [componentN "main" [("go", "1")] [("done", "1")] [("a", "Adder")] ["g"],
     componentN "Adder" [("left", "32"), ("right", "32")] [("out", "32")] [] []]

/-- Claim C8: completing with trigger `.` inside a group just after `a.` —
the in-progress word scanned back from the cursor is `a` — against the
Component Table parsed from the C8 document yields exactly the candidates
`left : input`, `right : input`, `out : output`. -/
theorem c8_dot_completion_ports :
    completion_at_point (component_map docC8) [] ["a."] 0 2 true .Group
        (some "main") (some ".") =
      .Found [("left", "input"), ("right", "input"), ("out", "output")] :=
  rfl

/-- Claim C9: `Document::find_component` never returns the absent result:
it is always `some`; when no declared component or primitive name matches,
it is `ContinueSearch` carrying exactly the file's resolved imports (a list
that may be empty, as the concrete import-free document shows); when some
declared name matches, it is `Found` at a declaration node with that
name. -/
theorem c9_find_component_total (ops : PathOps) (lib_paths : List String)
    (d : DocG) (name : String) :
    (∃ r, find_component ops lib_paths d name = some r) ∧
    ((∀ n ∈ components_q d.tree, node_text n ≠ name) →
      find_component ops lib_paths d name =
        some (.ContinueSearch
          (resolve_imports ops d.cur_dir lib_paths (raw_imports d.tree))
          name)) ∧
    ((∃ n ∈ components_q d.tree, node_text n = name) →
      ∃ nd, find_component ops lib_paths d name =
          some (.Found (d.url, nd)) ∧ node_text nd = name) ∧
    find_component opsId [] ⟨"u", "", sourceFileN []⟩ "X" =
      some (.ContinueSearch [] "X") := by
  refine ⟨?_, ?_, ?_, rfl⟩
  · cases hf : (components_q d.tree).find? (fun n => node_text n == name) with
    | none =>
      exact ⟨.ContinueSearch
          (resolve_imports ops d.cur_dir lib_paths (raw_imports d.tree)) name,
        by simp [find_component, hf, Option.orElse]⟩
    | some nd =>
      exact ⟨.Found (d.url, nd),
        by simp [find_component, hf, Option.orElse]⟩
  · intro hnone
    have hf : (components_q d.tree).find? (fun n => node_text n == name) =
        none := by
      rw [List.find?_eq_none]
      intro x hx
      simpa using hnone x hx
    simp [find_component, hf, Option.orElse]
  · rintro ⟨n0, hn0, heq⟩
    have hs : ((components_q d.tree).find?
        (fun n => node_text n == name)).isSome := by
      rw [List.find?_isSome]
      exact ⟨n0, hn0, by simpa using heq⟩
    obtain ⟨nd, hf⟩ := Option.isSome_iff_exists.mp hs
    refine ⟨nd, by simp [find_component, hf, Option.orElse], ?_⟩
    have := List.find?_some hf
    simpa using this

/-- Claim C9 (witness): the `Found` case discharged on the concrete file
declaring `Foo`. -/
theorem c9_witness :
    ∃ nd, find_component opsId [] docBF "Foo" =
        some (.Found (("B", nd) : String × TSNode)) ∧ node_text nd = "Foo" :=
  (c9_find_component_total opsId [] docBF "Foo").2.2.1
    ⟨identN "Foo",
     by
       rw [show components_q docBF.tree = [identN "Foo"] from rfl]
       exact List.mem_singleton.mpr rfl,
     rfl⟩

/-- A file declaring two components that share the name `A`. -/
def docDup : TSNode :=
  sourceFileN
    [componentN "A" [("x", "1")] [("y", "1")] [] [],
     componentN "A" [("p", "1")] [("q", "1")] [] ["g"]]

/-- Claim C10: the Component Table, being collected into a `HashMap`, holds
at most one entry per component name after every parse — its key list has
no duplicates for every tree, hence for every reparse — and when a file
declares two components with the same name the later one silently
overwrites the earlier one, with no error and no duplicate entry. -/
theorem c10_table_names_unique :
    (∀ t : TSNode, ((component_map t).map Prod.fst).Nodup) ∧
    component_map docDup =
      [("A", { inputs := ["p"], outputs := ["q"], cells := [],
               groups := ["g"] })] :=
  ⟨fun _ => buildHashMap_keys_nodup _, rfl⟩
